import Mathlib

/-!
Shallow embedding of `src/main.rs` of the `rust-file-earser` repository.

The program is an iced GUI application around one engine function,
`App::securely_overwrite(path, passes, tx)`, and one message handler,
`App::update`.  The engine opens the file read/write, and if the size is
zero removes it, sends `Progress::Updated(100.0)` and returns `Ok`.
Otherwise it runs `passes` passes; each pass seeks to the start and writes
`min(4096, remaining)` random bytes at a time until the file length is
rewritten, sending `Progress::Updated(completed/total*100)` on every 100th
buffer write (the chunk counter persists across passes), then calls
`sync_all`.  After all passes it drops the handle, removes the file and
sends a final `Updated(100.0)`.  The spawned worker thread runs the engine
and then sends exactly one `Progress::Finished(result.is_ok())`.

Modelling decisions, all visible in the definitions below:
* Each I/O side effect of the engine is recorded as an `Action` in program
  order, and each channel send also as a `Progress` event, so ordering and
  counting claims are statements about these traces.
* The `f32` progress fraction is modelled as an exact rational.  Every
  claim below depends only on the values `completed_work/total_work*100`;
  `f32` rounding is monotone, so monotonicity and the exact endpoint
  `100.0` (where `completed_work = total_work` makes the quotient exactly
  `1.0`) transfer.
* The random byte values written are irrelevant to every claim and are not
  modelled; a `writeChunk` action records the pass index and byte count.
* `u64`/`usize` arithmetic is modelled on `Nat`: `passes = 3` and a real
  file size cannot overflow `u64` in `passes * file_size`.
* Failure injection: the only fallible operation any claim distinguishes
  is the initial `open` (claim on permission-denied), modelled by the
  `openFails` flag; all later I/O is assumed to succeed, matching the
  spec's successful-run scenarios.  On `openFails` the function returns
  the error immediately: no action is performed and no event is sent.
* The `while remaining > 0` loop decreases `remaining` by at least one
  byte per iteration (the chunk is `min 4096 remaining ≥ 1`), so running
  it with fuel `remaining` is exact; the lemmas below only ever use
  `innerLoop` with `remaining ≤ fuel`.
-/

namespace FileEraser

/-- Events sent over the flume channel (`enum Progress` in `src/main.rs`):
`Updated` carries the progress fraction, `Finished` the success flag. -/
inductive Progress where
  | Updated : ℚ → Progress
  | Finished : Bool → Progress
deriving DecidableEq

/-- One observable I/O side effect of `App::securely_overwrite`, in program
order.  `writeChunk k n` is a `write_all` of `n` bytes during pass `k`;
`syncAll k` is the `sync_all` ending pass `k`; `sendEvent e` is a channel
send; `closeFile` is the drop of the `File` handle; `removeFile` is
`remove_file(path)`. -/
inductive Action where
  | openFile : Action
  | seekStart : Action
  | writeChunk : Nat → Nat → Action
  | syncAll : Nat → Action
  | sendEvent : Progress → Action
  | closeFile : Action
  | removeFile : Action
deriving DecidableEq

/-- `let buffer_size = 4096;` in `securely_overwrite`. -/
def bufferSize : Nat := 4096

/-- The two mutable counters of the engine: `completed_work` and
`chunk_count`.  `chunk_count` is declared outside the pass loop and hence
persists across passes. -/
structure Counters where
  completed : Nat
  chunkCount : Nat
deriving DecidableEq

/-- The progress value sent by the engine:
`(completed_work as f32 / total_work as f32) * 100.0`. -/
def progressFrac (completed totalWork : Nat) : ℚ :=
  (completed : ℚ) / (totalWork : ℚ) * 100

/-- The `while remaining > 0` loop of one pass.  Per iteration: write
`min(buffer_size, remaining)` freshly randomized bytes, decrease
`remaining`, increase `completed_work`, increment `chunk_count`, and if
`chunk_count % 100 == 0` send `Updated(completed/total*100)`.  Returns the
actions, the sent events and the final counters.  `fuel` bounds the number
of iterations; every use below has `remaining ≤ fuel`, which is exact
because each iteration removes at least one byte. -/
def innerLoop (totalWork passIdx : Nat) : Nat → Nat → Counters →
    List Action × List Progress × Counters
  | 0, _, c => ([], [], c)
  | fuel + 1, remaining, c =>
    if remaining = 0 then ([], [], c)
    else
      let chunk := min bufferSize remaining
      let c1 : Counters := ⟨c.completed + chunk, c.chunkCount + 1⟩
      let emit : List Progress :=
        if c1.chunkCount % 100 = 0 then
          [Progress.Updated (progressFrac c1.completed totalWork)]
        else []
      let rest := innerLoop totalWork passIdx fuel (remaining - chunk) c1
      (Action.writeChunk passIdx chunk :: (emit.map Action.sendEvent ++ rest.1),
       emit ++ rest.2.1, rest.2.2)

/-- The `for _pass in 0..passes` loop: each pass seeks to the start, runs
the inner write loop over the whole file size, then calls `sync_all`.
`n` is the number of passes still to run, `k` the index of the current
pass. -/
def passLoop (totalWork fileSize : Nat) : Nat → Nat → Counters →
    List Action × List Progress × Counters
  | 0, _, c => ([], [], c)
  | n + 1, k, c =>
    let body := innerLoop totalWork k fileSize fileSize c
    let rest := passLoop totalWork fileSize n (k + 1) body.2.2
    (Action.seekStart :: (body.1 ++ Action.syncAll k :: rest.1),
     body.2.1 ++ rest.2.1, rest.2.2)

/-- Result of one engine run: the I/O action trace, the events sent over
the channel in order, whether the function returned `Ok`, and whether the
path still exists afterwards. -/
structure EngineRun where
  actions : List Action
  events : List Progress
  result : Bool
  fileExists : Bool
deriving DecidableEq

/-- `App::securely_overwrite(path, passes, tx)`.  `fileSize` stands for
`file.metadata()?.len()`; `openFails` injects failure of the initial
`File::options().read(true).write(true).open(path)` (e.g. permission
denied), in which case `?` returns the error before any other effect.
For `file_size == 0` the file is removed and `Updated(100.0)` sent while
the handle is still open; the handle is dropped when the function
returns.  Otherwise the pass loop runs with
`total_work = passes * file_size`, then the handle is dropped, the file
removed and the final `Updated(100.0)` sent. -/
def securely_overwrite (fileSize passes : Nat) (openFails : Bool) : EngineRun :=
  if openFails then
    { actions := [], events := [], result := false, fileExists := true }
  else if fileSize = 0 then
    { actions := [Action.openFile, Action.removeFile,
        Action.sendEvent (Progress.Updated 100), Action.closeFile],
      events := [Progress.Updated 100],
      result := true, fileExists := false }
  else
    let totalWork := passes * fileSize
    let run := passLoop totalWork fileSize passes 0 ⟨0, 0⟩
    { actions := Action.openFile :: (run.1 ++
        [Action.closeFile, Action.removeFile,
         Action.sendEvent (Progress.Updated 100)]),
      events := run.2.1 ++ [Progress.Updated 100],
      result := true, fileExists := false }

/-- The spawned worker thread
(`std::thread::spawn` in `Message::EraseFile`): it runs the engine to
completion and then unconditionally sends exactly one
`Progress::Finished(result.is_ok())`.  The value is the full sequence of
events sent over the channel for one job, which the FIFO channel delivers
to the consumer in this order. -/
def workerEvents (fileSize passes : Nat) (openFails : Bool) : List Progress :=
  let run := securely_overwrite fileSize passes openFails
  run.events ++ [Progress.Finished run.result]

/-- The fractions carried by the `Updated` events of an event list, in
order. -/
def updatedFracs (l : List Progress) : List ℚ :=
  l.filterMap fun e =>
    match e with
    | Progress.Updated q => some q
    | Progress.Finished _ => none

/-- Number of buffer writes in a trace. -/
def countWrites (l : List Action) : Nat :=
  l.countP fun a =>
    match a with
    | Action.writeChunk _ _ => true
    | _ => false

/-- Number of buffer writes belonging to pass `k` in a trace. -/
def countWritesOfPass (l : List Action) (k : Nat) : Nat :=
  l.countP fun a =>
    match a with
    | Action.writeChunk j _ => j == k
    | _ => false

/-- Number of `Updated` events in an event list. -/
def countUpdated (l : List Progress) : Nat :=
  l.countP fun e =>
    match e with
    | Progress.Updated _ => true
    | Progress.Finished _ => false

/-- Number of `Finished` events in an event list. -/
def countFinished (l : List Progress) : Nat :=
  l.countP fun e =>
    match e with
    | Progress.Updated _ => false
    | Progress.Finished _ => true

/-- The application state (`struct App` in `src/main.rs`).  The receiver
half of the flume channel is modelled as `Option Unit`: the claims only
distinguish whether a receiver is currently held. -/
structure App where
  file : String
  progress : ℚ
  erasing : Bool
  receiver : Option Unit
deriving DecidableEq

/-- A request to spawn the background erase thread, recorded when
`Message::EraseFile` passes the `!self.erasing` guard: the real code then
creates a fresh bounded channel of capacity 1000 and spawns the thread
running `securely_overwrite(path, 3, tx)`. -/
structure SpawnReq where
  path : String
  passes : Nat
deriving DecidableEq

/-- The messages handled by `App::update` (`enum Message`).  The file
dialog's future is out of scope; `FileOpened` carries its result. -/
inductive Message where
  | SelectFile : Message
  | FileOpened : Except String String → Message
  | EraseFile : Message
  | ProgressMsg : Progress → Message

/-- `App::update`.  Returns the new state and the spawn request if this
message started a background erase unit (`none` otherwise; the returned
`iced::Task` values and `println!` logging carry no state).  On
`EraseFile` with `erasing` already true the guard makes the message a
no-op.  On `Progress::Finished(success)` the handler clears `erasing`,
drops the receiver, logs on failure, and sets `progress = 100.0`
regardless of `success`. -/
def update (a : App) (m : Message) : App × Option SpawnReq :=
  match m with
  | Message.EraseFile =>
    if !a.erasing then
      ({ a with receiver := some (), erasing := true, progress := 0 },
       some ⟨a.file, 3⟩)
    else (a, none)
  | Message.ProgressMsg p =>
    match p with
    | Progress.Updated val => ({ a with progress := val }, none)
    | Progress.Finished _success =>
      ({ a with erasing := false, receiver := none, progress := 100 }, none)
  | Message.SelectFile => (a, none)
  | Message.FileOpened r =>
    match r with
    | Except.ok path => ({ a with file := path }, none)
    | Except.error _ => (a, none)

/-! Arithmetic facts about the progress fraction. -/

lemma progressFrac_mono (T : Nat) {v w : Nat} (h : v ≤ w) :
    progressFrac v T ≤ progressFrac w T := by
  unfold progressFrac
  rcases Nat.eq_zero_or_pos T with hT | hT
  · simp [hT]
  · have hT' : (0 : ℚ) < (T : ℚ) := by exact_mod_cast hT
    have hvw : (v : ℚ) ≤ (w : ℚ) := by exact_mod_cast h
    have hdiv : (v : ℚ) / (T : ℚ) ≤ (w : ℚ) / (T : ℚ) :=
      (div_le_div_iff_of_pos_right hT').mpr hvw
    have h100 : (0 : ℚ) ≤ 100 := by norm_num
    exact mul_le_mul_of_nonneg_right hdiv h100

lemma progressFrac_self (T : Nat) (h : T ≠ 0) : progressFrac T T = 100 := by
  unfold progressFrac
  rw [div_self (by exact_mod_cast h), one_mul]

lemma progressFrac_le_100 (T : Nat) {v : Nat} (h : v ≤ T) :
    progressFrac v T ≤ 100 := by
  rcases Nat.eq_zero_or_pos T with hT | hT
  · have hv : v = 0 := by omega
    subst hv; subst hT
    unfold progressFrac
    norm_num
  · calc progressFrac v T ≤ progressFrac T T := progressFrac_mono T h
      _ = 100 := progressFrac_self T (by omega)

/-! Closed forms for the inner write loop.  Throughout, `(r + 4095) / 4096`
is the number of loop iterations needed to rewrite `r` remaining bytes,
i.e. `ceil(r / buffer_size)`. -/

lemma countWritesOfPass_map_sendEvent (l : List Progress) (j : Nat) :
    countWritesOfPass (l.map Action.sendEvent) j = 0 := by
  unfold countWritesOfPass
  rw [List.countP_eq_zero]
  intro a ha
  rcases List.mem_map.mp ha with ⟨e, _, rfl⟩
  simp

lemma countWrites_map_sendEvent (l : List Progress) :
    countWrites (l.map Action.sendEvent) = 0 := by
  unfold countWrites
  rw [List.countP_eq_zero]
  intro a ha
  rcases List.mem_map.mp ha with ⟨e, _, rfl⟩
  simp

lemma innerLoop_succ (T pi fuel r : Nat) (c : Counters) (h0 : ¬r = 0) :
    innerLoop T pi (fuel + 1) r c =
      (Action.writeChunk pi (min 4096 r) ::
        ((if (c.chunkCount + 1) % 100 = 0 then
            [Progress.Updated (progressFrac (c.completed + min 4096 r) T)]
          else []).map Action.sendEvent ++
         (innerLoop T pi fuel (r - min 4096 r)
           ⟨c.completed + min 4096 r, c.chunkCount + 1⟩).1),
       (if (c.chunkCount + 1) % 100 = 0 then
          [Progress.Updated (progressFrac (c.completed + min 4096 r) T)]
        else []) ++
         (innerLoop T pi fuel (r - min 4096 r)
           ⟨c.completed + min 4096 r, c.chunkCount + 1⟩).2.1,
       (innerLoop T pi fuel (r - min 4096 r)
         ⟨c.completed + min 4096 r, c.chunkCount + 1⟩).2.2) := by
  simp only [innerLoop, h0, if_false, bufferSize]

lemma innerLoop_completed (T pi : Nat) :
    ∀ fuel r c, r ≤ fuel →
      (innerLoop T pi fuel r c).2.2.completed = c.completed + r := by
  intro fuel
  induction fuel with
  | zero =>
    intro r c hr
    have h0 : r = 0 := by omega
    simp [innerLoop, h0]
  | succ fuel ih =>
    intro r c hr
    by_cases h0 : r = 0
    · simp [innerLoop, h0]
    · have hrec : r - min bufferSize r ≤ fuel := by
        simp only [bufferSize]; omega
      simp only [innerLoop, h0, if_false]
      rw [ih (r - min bufferSize r) ⟨c.completed + min bufferSize r, c.chunkCount + 1⟩ hrec]
      simp only [bufferSize]
      omega

lemma innerLoop_chunkCount (T pi : Nat) :
    ∀ fuel r c, r ≤ fuel →
      (innerLoop T pi fuel r c).2.2.chunkCount = c.chunkCount + (r + 4095) / 4096 := by
  intro fuel
  induction fuel with
  | zero =>
    intro r c hr
    have h0 : r = 0 := by omega
    simp [innerLoop, h0]
  | succ fuel ih =>
    intro r c hr
    by_cases h0 : r = 0
    · simp [innerLoop, h0]
    · have hrec : r - min bufferSize r ≤ fuel := by
        simp only [bufferSize]; omega
      simp only [innerLoop, h0, if_false]
      rw [ih (r - min bufferSize r) ⟨c.completed + min bufferSize r, c.chunkCount + 1⟩ hrec]
      simp only [bufferSize]
      omega

lemma innerLoop_countWritesOfPass (T pi j : Nat) :
    ∀ fuel r c, r ≤ fuel →
      countWritesOfPass (innerLoop T pi fuel r c).1 j =
        if j = pi then (r + 4095) / 4096 else 0 := by
  intro fuel
  induction fuel with
  | zero =>
    intro r c hr
    have h0 : r = 0 := by omega
    simp [innerLoop, h0, countWritesOfPass]
  | succ fuel ih =>
    intro r c hr
    by_cases h0 : r = 0
    · simp [innerLoop, h0, countWritesOfPass]
    · have hrec : r - min 4096 r ≤ fuel := by omega
      rw [innerLoop_succ T pi fuel r c h0]
      unfold countWritesOfPass
      rw [List.countP_cons, List.countP_append]
      have h1 := countWritesOfPass_map_sendEvent
        (if (c.chunkCount + 1) % 100 = 0 then
          [Progress.Updated (progressFrac (c.completed + min 4096 r) T)]
         else []) j
      unfold countWritesOfPass at h1
      have h2 := ih (r - min 4096 r) ⟨c.completed + min 4096 r, c.chunkCount + 1⟩ hrec
      unfold countWritesOfPass at h2
      rw [h1, h2]
      by_cases hj : j = pi
      · subst hj
        simp only [beq_self_eq_true, if_true, if_pos rfl]
        omega
      · have hb : (pi == j) = false := beq_eq_false_iff_ne.mpr fun h => hj h.symm
        simp only [hb, hj, if_false, Bool.false_eq_true]

lemma innerLoop_countWrites (T pi : Nat) :
    ∀ fuel r c, r ≤ fuel →
      countWrites (innerLoop T pi fuel r c).1 = (r + 4095) / 4096 := by
  intro fuel
  induction fuel with
  | zero =>
    intro r c hr
    have h0 : r = 0 := by omega
    simp [innerLoop, h0, countWrites]
  | succ fuel ih =>
    intro r c hr
    by_cases h0 : r = 0
    · simp [innerLoop, h0, countWrites]
    · have hrec : r - min 4096 r ≤ fuel := by omega
      rw [innerLoop_succ T pi fuel r c h0]
      unfold countWrites
      rw [List.countP_cons, List.countP_append]
      have h1 := countWrites_map_sendEvent
        (if (c.chunkCount + 1) % 100 = 0 then
          [Progress.Updated (progressFrac (c.completed + min 4096 r) T)]
         else [])
      unfold countWrites at h1
      have h2 := ih (r - min 4096 r) ⟨c.completed + min 4096 r, c.chunkCount + 1⟩ hrec
      unfold countWrites at h2
      rw [h1, h2]
      simp
      omega

lemma innerLoop_countUpdated (T pi : Nat) :
    ∀ fuel r c, r ≤ fuel →
      countUpdated (innerLoop T pi fuel r c).2.1 =
        (c.chunkCount + (r + 4095) / 4096) / 100 - c.chunkCount / 100 := by
  intro fuel
  induction fuel with
  | zero =>
    intro r c hr
    have h0 : r = 0 := by omega
    simp [innerLoop, h0, countUpdated]
  | succ fuel ih =>
    intro r c hr
    by_cases h0 : r = 0
    · simp [innerLoop, h0, countUpdated]
    · have hrec : r - min 4096 r ≤ fuel := by omega
      rw [innerLoop_succ T pi fuel r c h0]
      unfold countUpdated
      rw [List.countP_append]
      have h2 := ih (r - min 4096 r) ⟨c.completed + min 4096 r, c.chunkCount + 1⟩ hrec
      unfold countUpdated at h2
      rw [h2]
      by_cases hc : (c.chunkCount + 1) % 100 = 0
      · simp [hc]
        omega
      · simp only [hc, if_false, List.countP_nil]
        omega

lemma innerLoop_actions_mem (T pi : Nat) :
    ∀ fuel r c a, a ∈ (innerLoop T pi fuel r c).1 →
      (∃ n, a = Action.writeChunk pi n) ∨ ∃ e, a = Action.sendEvent e := by
  intro fuel
  induction fuel with
  | zero =>
    intro r c a ha
    simp [innerLoop] at ha
  | succ fuel ih =>
    intro r c a ha
    by_cases h0 : r = 0
    · simp [innerLoop, h0] at ha
    · rw [innerLoop_succ T pi fuel r c h0] at ha
      simp only [List.mem_cons, List.mem_append] at ha
      rcases ha with rfl | ha | ha
      · exact Or.inl ⟨_, rfl⟩
      · rcases List.mem_map.mp ha with ⟨e, _, rfl⟩
        exact Or.inr ⟨e, rfl⟩
      · exact ih _ _ _ ha

lemma innerLoop_events_mem (T pi : Nat) :
    ∀ fuel r c e, e ∈ (innerLoop T pi fuel r c).2.1 →
      ∃ q, e = Progress.Updated q := by
  intro fuel
  induction fuel with
  | zero =>
    intro r c e he
    simp [innerLoop] at he
  | succ fuel ih =>
    intro r c e he
    by_cases h0 : r = 0
    · simp [innerLoop, h0] at he
    · rw [innerLoop_succ T pi fuel r c h0] at he
      simp only [List.mem_append] at he
      rcases he with he | he
      · by_cases hc : (c.chunkCount + 1) % 100 = 0
        · rw [if_pos hc] at he
          simp only [List.mem_singleton] at he
          exact ⟨_, he⟩
        · rw [if_neg hc] at he
          simp at he
      · exact ih _ _ _ he

/-! Closed forms for the pass loop. -/

lemma passLoop_succ (T fs n k : Nat) (c : Counters) :
    passLoop T fs (n + 1) k c =
      (Action.seekStart :: ((innerLoop T k fs fs c).1 ++ Action.syncAll k ::
         (passLoop T fs n (k + 1) (innerLoop T k fs fs c).2.2).1),
       (innerLoop T k fs fs c).2.1 ++
         (passLoop T fs n (k + 1) (innerLoop T k fs fs c).2.2).2.1,
       (passLoop T fs n (k + 1) (innerLoop T k fs fs c).2.2).2.2) := by
  simp only [passLoop]

lemma passLoop_completed (T fs : Nat) :
    ∀ n k c, (passLoop T fs n k c).2.2.completed = c.completed + n * fs := by
  intro n
  induction n with
  | zero => intro k c; simp [passLoop]
  | succ n ih =>
    intro k c
    rw [passLoop_succ]
    rw [ih (k + 1) (innerLoop T k fs fs c).2.2]
    rw [innerLoop_completed T k fs fs c (le_refl fs)]
    rw [Nat.succ_mul]
    omega

lemma passLoop_chunkCount (T fs : Nat) :
    ∀ n k c, (passLoop T fs n k c).2.2.chunkCount =
      c.chunkCount + n * ((fs + 4095) / 4096) := by
  intro n
  induction n with
  | zero => intro k c; simp [passLoop]
  | succ n ih =>
    intro k c
    rw [passLoop_succ]
    rw [ih (k + 1) (innerLoop T k fs fs c).2.2]
    rw [innerLoop_chunkCount T k fs fs c (le_refl fs)]
    rw [Nat.succ_mul]
    omega

lemma passLoop_countWritesOfPass (T fs : Nat) :
    ∀ n k c j, countWritesOfPass (passLoop T fs n k c).1 j =
      if k ≤ j ∧ j < k + n then (fs + 4095) / 4096 else 0 := by
  intro n
  induction n with
  | zero =>
    intro k c j
    have hno : ¬(k ≤ j ∧ j < k) := by omega
    simp [passLoop, countWritesOfPass, hno]
  | succ n ih =>
    intro k c j
    rw [passLoop_succ]
    unfold countWritesOfPass
    rw [List.countP_cons, List.countP_append, List.countP_cons]
    have h1 := innerLoop_countWritesOfPass T k j fs fs c (le_refl fs)
    unfold countWritesOfPass at h1
    have h2 := ih (k + 1) (innerLoop T k fs fs c).2.2 j
    unfold countWritesOfPass at h2
    rw [h1, h2]
    simp only [if_neg (by simp : ¬False), Bool.false_eq_true, if_false]
    split_ifs <;> omega

lemma passLoop_countWrites (T fs : Nat) :
    ∀ n k c, countWrites (passLoop T fs n k c).1 = n * ((fs + 4095) / 4096) := by
  intro n
  induction n with
  | zero => intro k c; simp [passLoop, countWrites]
  | succ n ih =>
    intro k c
    rw [passLoop_succ]
    unfold countWrites
    rw [List.countP_cons, List.countP_append, List.countP_cons]
    have h1 := innerLoop_countWrites T k fs fs c (le_refl fs)
    unfold countWrites at h1
    have h2 := ih (k + 1) (innerLoop T k fs fs c).2.2
    unfold countWrites at h2
    rw [h1, h2]
    rw [Nat.succ_mul]
    simp only [Bool.false_eq_true, if_false]
    omega

lemma passLoop_countUpdated (T fs : Nat) :
    ∀ n k c, countUpdated (passLoop T fs n k c).2.1 =
      (c.chunkCount + n * ((fs + 4095) / 4096)) / 100 - c.chunkCount / 100 := by
  intro n
  induction n with
  | zero => intro k c; simp [passLoop, countUpdated]
  | succ n ih =>
    intro k c
    rw [passLoop_succ]
    unfold countUpdated
    rw [List.countP_append]
    have h1 := innerLoop_countUpdated T k fs fs c (le_refl fs)
    unfold countUpdated at h1
    have h2 := ih (k + 1) (innerLoop T k fs fs c).2.2
    unfold countUpdated at h2
    rw [innerLoop_chunkCount T k fs fs c (le_refl fs)] at h2
    rw [h1, h2]
    rw [Nat.succ_mul]
    omega

lemma passLoop_actions_mem (T fs : Nat) :
    ∀ n k c a, a ∈ (passLoop T fs n k c).1 →
      a = Action.seekStart ∨
      (∃ j sz, a = Action.writeChunk j sz ∧ k ≤ j) ∨
      (∃ j, a = Action.syncAll j ∧ k ≤ j) ∨
      ∃ e, a = Action.sendEvent e := by
  intro n
  induction n with
  | zero =>
    intro k c a ha
    simp [passLoop] at ha
  | succ n ih =>
    intro k c a ha
    rw [passLoop_succ] at ha
    simp only [List.mem_cons, List.mem_append] at ha
    rcases ha with rfl | ha | rfl | ha
    · exact Or.inl rfl
    · rcases innerLoop_actions_mem T k fs fs c a ha with ⟨sz, rfl⟩ | ⟨e, rfl⟩
      · exact Or.inr (Or.inl ⟨k, sz, rfl, le_refl k⟩)
      · exact Or.inr (Or.inr (Or.inr ⟨e, rfl⟩))
    · exact Or.inr (Or.inr (Or.inl ⟨k, rfl, le_refl k⟩))
    · rcases ih (k + 1) (innerLoop T k fs fs c).2.2 a ha with
        rfl | ⟨j, sz, rfl, hj⟩ | ⟨j, rfl, hj⟩ | ⟨e, rfl⟩
      · exact Or.inl rfl
      · exact Or.inr (Or.inl ⟨j, sz, rfl, by omega⟩)
      · exact Or.inr (Or.inr (Or.inl ⟨j, rfl, by omega⟩))
      · exact Or.inr (Or.inr (Or.inr ⟨e, rfl⟩))

lemma passLoop_events_mem (T fs : Nat) :
    ∀ n k c e, e ∈ (passLoop T fs n k c).2.1 →
      ∃ q, e = Progress.Updated q := by
  intro n
  induction n with
  | zero =>
    intro k c e he
    simp [passLoop] at he
  | succ n ih =>
    intro k c e he
    rw [passLoop_succ] at he
    simp only [List.mem_append] at he
    rcases he with he | he
    · exact innerLoop_events_mem T k fs fs c e he
    · exact ih (k + 1) (innerLoop T k fs fs c).2.2 e he

/-! Monotonicity of the emitted progress fractions. -/

lemma updatedFracs_append (l1 l2 : List Progress) :
    updatedFracs (l1 ++ l2) = updatedFracs l1 ++ updatedFracs l2 := by
  unfold updatedFracs
  rw [List.filterMap_append]

lemma mem_of_getLast? {α : Type} {l : List α} {x : α} (h : x ∈ l.getLast?) :
    x ∈ l := by
  rcases List.mem_getLast?_eq_getLast h with ⟨hne, rfl⟩
  exact List.getLast_mem hne

lemma innerLoop_fracs (T pi : Nat) :
    ∀ fuel r c, r ≤ fuel →
      List.Chain' (fun a b => a ≤ b) (updatedFracs (innerLoop T pi fuel r c).2.1) ∧
      ∀ q ∈ updatedFracs (innerLoop T pi fuel r c).2.1,
        progressFrac c.completed T ≤ q ∧ q ≤ progressFrac (c.completed + r) T := by
  intro fuel
  induction fuel with
  | zero =>
    intro r c hr
    have h0 : r = 0 := by omega
    simp [innerLoop, h0, updatedFracs]
  | succ fuel ih =>
    intro r c hr
    by_cases h0 : r = 0
    · simp [innerLoop, h0, updatedFracs]
    · have hrec : r - min 4096 r ≤ fuel := by omega
      have hsum : c.completed + min 4096 r + (r - min 4096 r) = c.completed + r := by
        omega
      have hih := ih (r - min 4096 r) ⟨c.completed + min 4096 r, c.chunkCount + 1⟩ hrec
      rw [innerLoop_succ T pi fuel r c h0]
      rw [updatedFracs_append]
      by_cases hc : (c.chunkCount + 1) % 100 = 0
      · rw [if_pos hc]
        have hfr : updatedFracs [Progress.Updated
            (progressFrac (c.completed + min 4096 r) T)] =
            [progressFrac (c.completed + min 4096 r) T] := by
          simp [updatedFracs]
        rw [hfr, List.singleton_append]
        constructor
        · rw [List.chain'_cons']
          refine ⟨?_, hih.1⟩
          intro y hy
          have hmem := List.mem_of_mem_head? hy
          exact (hih.2 y hmem).1
        · intro q hq
          rcases List.mem_cons.mp hq with rfl | hq
          · constructor
            · exact progressFrac_mono T (by omega)
            · exact progressFrac_mono T (by omega)
          · have := hih.2 q hq
            rw [hsum] at this
            constructor
            · calc progressFrac c.completed T
                  ≤ progressFrac (c.completed + min 4096 r) T :=
                    progressFrac_mono T (by omega)
                _ ≤ q := by
                    have h2 := (ih (r - min 4096 r)
                      ⟨c.completed + min 4096 r, c.chunkCount + 1⟩ hrec).2 q hq
                    exact h2.1
            · exact this.2
      · rw [if_neg hc]
        have hfr : updatedFracs ([] : List Progress) = [] := by simp [updatedFracs]
        rw [hfr, List.nil_append]
        refine ⟨hih.1, ?_⟩
        intro q hq
        have := hih.2 q hq
        rw [hsum] at this
        constructor
        · calc progressFrac c.completed T
              ≤ progressFrac (c.completed + min 4096 r) T :=
                progressFrac_mono T (by omega)
            _ ≤ q := this.1
        · exact this.2

lemma passLoop_fracs (T fs : Nat) :
    ∀ n k c,
      List.Chain' (fun a b => a ≤ b) (updatedFracs (passLoop T fs n k c).2.1) ∧
      ∀ q ∈ updatedFracs (passLoop T fs n k c).2.1,
        progressFrac c.completed T ≤ q ∧
        q ≤ progressFrac (c.completed + n * fs) T := by
  intro n
  induction n with
  | zero =>
    intro k c
    simp [passLoop, updatedFracs]
  | succ n ih =>
    intro k c
    have hinner := innerLoop_fracs T k fs fs c (le_refl fs)
    have hcomp := innerLoop_completed T k fs fs c (le_refl fs)
    have hrest := ih (k + 1) (innerLoop T k fs fs c).2.2
    rw [hcomp] at hrest
    have hmul : c.completed + fs + n * fs = c.completed + (n + 1) * fs := by
      rw [Nat.succ_mul]; omega
    rw [hmul] at hrest
    rw [passLoop_succ, updatedFracs_append]
    constructor
    · rw [List.chain'_append]
      refine ⟨hinner.1, hrest.1, ?_⟩
      intro x hx y hy
      have hx' := (hinner.2 x (mem_of_getLast? hx)).2
      have hy' := (hrest.2 y (List.mem_of_mem_head? hy)).1
      calc x ≤ progressFrac (c.completed + fs) T := hx'
        _ ≤ y := hy'
    · intro q hq
      rcases List.mem_append.mp hq with hq | hq
      · have := hinner.2 q hq
        constructor
        · exact this.1
        · calc q ≤ progressFrac (c.completed + fs) T := this.2
            _ ≤ progressFrac (c.completed + (n + 1) * fs) T := by
                apply progressFrac_mono
                rw [Nat.succ_mul]
                omega
      · have := hrest.2 q hq
        constructor
        · calc progressFrac c.completed T
              ≤ progressFrac (c.completed + fs) T := progressFrac_mono T (by omega)
            _ ≤ q := this.1
        · exact this.2

/-! The flush-before-next-pass structure of the action trace. -/

lemma passLoop_sync_split (T fs : Nat) :
    ∀ n k0 c k, k0 ≤ k → k < k0 + n →
      ∃ l1 l2, (passLoop T fs n k0 c).1 = l1 ++ Action.syncAll k :: l2 ∧
        (∀ j sz, Action.writeChunk j sz ∈ l1 → j ≤ k) ∧
        (∀ j sz, Action.writeChunk j sz ∈ l2 → k < j) := by
  intro n
  induction n with
  | zero =>
    intro k0 c k h1 h2
    omega
  | succ n ih =>
    intro k0 c k h1 h2
    by_cases hk : k = k0
    · subst hk
      refine ⟨Action.seekStart :: (innerLoop T k fs fs c).1,
              (passLoop T fs n (k + 1) (innerLoop T k fs fs c).2.2).1,
              ?_, ?_, ?_⟩
      · rw [passLoop_succ]
        simp [List.cons_append]
      · intro j sz hmem
        rcases List.mem_cons.mp hmem with h | h
        · simp at h
        · rcases innerLoop_actions_mem T k fs fs c _ h with ⟨m, heq⟩ | ⟨e, heq⟩
          · injection heq with hj _
            omega
          · simp at heq
      · intro j sz hmem
        rcases passLoop_actions_mem T fs n (k + 1) _ _ hmem with
          heq | ⟨j', sz', heq, hj⟩ | ⟨j', heq, hj⟩ | ⟨e, heq⟩
        · simp at heq
        · injection heq with h1 h2
          omega
        · simp at heq
        · simp at heq
    · have h1' : k0 + 1 ≤ k := by omega
      have h2' : k < (k0 + 1) + n := by omega
      rcases ih (k0 + 1) (innerLoop T k0 fs fs c).2.2 k h1' h2' with
        ⟨l1, l2, heq, hb1, hb2⟩
      refine ⟨Action.seekStart ::
                ((innerLoop T k0 fs fs c).1 ++ Action.syncAll k0 :: l1),
              l2, ?_, ?_, hb2⟩
      · rw [passLoop_succ, heq]
        simp [List.cons_append, List.append_assoc]
      · intro j sz hmem
        rcases List.mem_cons.mp hmem with h | h
        · simp at h
        · rcases List.mem_append.mp h with h | h
          · rcases innerLoop_actions_mem T k0 fs fs c _ h with ⟨m, hwe⟩ | ⟨e, hwe⟩
            · injection hwe with hj _
              omega
            · simp at hwe
          · rcases List.mem_cons.mp h with h | h
            · simp at h
            · exact hb1 j sz h

lemma passLoop_no_removeFile (T fs n k : Nat) (c : Counters) :
    Action.removeFile ∉ (passLoop T fs n k c).1 := by
  intro h
  rcases passLoop_actions_mem T fs n k c _ h with
    heq | ⟨j, sz, heq, _⟩ | ⟨j, heq, _⟩ | ⟨e, heq⟩ <;> simp at heq

lemma passLoop_no_closeFile (T fs n k : Nat) (c : Counters) :
    Action.closeFile ∉ (passLoop T fs n k c).1 := by
  intro h
  rcases passLoop_actions_mem T fs n k c _ h with
    heq | ⟨j, sz, heq, _⟩ | ⟨j, heq, _⟩ | ⟨e, heq⟩ <;> simp at heq

/-! Engine-level helper: the successful non-empty-file branch. -/

lemma securely_overwrite_pos (s p : Nat) (hs : ¬s = 0) :
    securely_overwrite s p false =
      { actions := Action.openFile :: ((passLoop (p * s) s p 0 ⟨0, 0⟩).1 ++
          [Action.closeFile, Action.removeFile,
           Action.sendEvent (Progress.Updated 100)]),
        events := (passLoop (p * s) s p 0 ⟨0, 0⟩).2.1 ++ [Progress.Updated 100],
        result := true, fileExists := false } := by
  simp [securely_overwrite, hs]

lemma workerEvents_def (s p : Nat) (b : Bool) :
    workerEvents s p b =
      (securely_overwrite s p b).events ++
        [Progress.Finished (securely_overwrite s p b).result] := rfl

lemma securely_overwrite_pos_actions (s p : Nat) (hs : ¬s = 0) :
    (securely_overwrite s p false).actions =
      Action.openFile :: ((passLoop (p * s) s p 0 ⟨0, 0⟩).1 ++
        [Action.closeFile, Action.removeFile,
         Action.sendEvent (Progress.Updated 100)]) := by
  rw [securely_overwrite_pos s p hs]

lemma securely_overwrite_pos_events (s p : Nat) (hs : ¬s = 0) :
    (securely_overwrite s p false).events =
      (passLoop (p * s) s p 0 ⟨0, 0⟩).2.1 ++ [Progress.Updated 100] := by
  rw [securely_overwrite_pos s p hs]

lemma securely_overwrite_pos_fileExists (s p : Nat) (hs : ¬s = 0) :
    (securely_overwrite s p false).fileExists = false := by
  rw [securely_overwrite_pos s p hs]

lemma securely_overwrite_events_mem (s p : Nat) (b : Bool) :
    ∀ e ∈ (securely_overwrite s p b).events, ∃ q, e = Progress.Updated q := by
  cases b with
  | true =>
    intro e he
    simp [securely_overwrite] at he
  | false =>
    by_cases hs : s = 0
    · subst hs
      intro e he
      simp [securely_overwrite] at he
      exact ⟨100, he⟩
    · rw [securely_overwrite_pos_events s p hs]
      intro e he
      rcases List.mem_append.mp he with he | he
      · exact passLoop_events_mem (p * s) s p 0 ⟨0, 0⟩ e he
      · rcases List.mem_singleton.mp he with rfl
        exact ⟨100, rfl⟩

lemma workerEvents_countFinished (s p : Nat) (b : Bool) :
    countFinished (workerEvents s p b) = 1 := by
  rw [workerEvents_def]
  unfold countFinished
  rw [List.countP_append]
  have h0 : List.countP
      (fun e => match e with
        | Progress.Updated _ => false
        | Progress.Finished _ => true) (securely_overwrite s p b).events = 0 := by
    rw [List.countP_eq_zero]
    intro e he
    rcases securely_overwrite_events_mem s p b e he with ⟨q, rfl⟩
    simp
  rw [h0]
  rfl

lemma workerEvents_getLast (s p : Nat) (b : Bool) :
    (workerEvents s p b).getLast? =
      some (Progress.Finished (securely_overwrite s p b).result) := by
  rw [workerEvents_def, List.getLast?_concat]

lemma securely_overwrite_countWrites (s p : Nat) (hs : ¬s = 0) :
    countWrites (securely_overwrite s p false).actions =
      p * ((s + 4095) / 4096) := by
  rw [securely_overwrite_pos_actions s p hs]
  unfold countWrites
  rw [List.countP_cons, List.countP_append]
  have h := passLoop_countWrites (p * s) s p 0 ⟨0, 0⟩
  unfold countWrites at h
  rw [h]
  simp [List.countP_cons, List.countP_nil]

lemma securely_overwrite_countWritesOfPass (s p j : Nat) (hs : ¬s = 0)
    (hj : j < p) :
    countWritesOfPass (securely_overwrite s p false).actions j =
      (s + 4095) / 4096 := by
  rw [securely_overwrite_pos_actions s p hs]
  unfold countWritesOfPass
  rw [List.countP_cons, List.countP_append]
  have h := passLoop_countWritesOfPass (p * s) s p 0 ⟨0, 0⟩ j
  unfold countWritesOfPass at h
  rw [h]
  rw [if_pos (by omega : 0 ≤ j ∧ j < 0 + p)]
  simp [List.countP_cons, List.countP_nil]

lemma securely_overwrite_countUpdated (s p : Nat) (hs : ¬s = 0) :
    countUpdated (securely_overwrite s p false).events =
      (p * ((s + 4095) / 4096)) / 100 + 1 := by
  rw [securely_overwrite_pos_events s p hs]
  unfold countUpdated
  rw [List.countP_append]
  have h := passLoop_countUpdated (p * s) s p 0 ⟨0, 0⟩
  unfold countUpdated at h
  rw [h]
  simp [List.countP_cons, List.countP_nil]

/-! The claims. -/

/-- Claim C1, as stated, is false at `s = 0`: the claim requires for every
file size `s ≥ 0` that the directory entry is removed only after the file
handle has been closed, but for an empty file `securely_overwrite` calls
`remove_file` inside the `file_size == 0` branch while the `File` handle
is still live; the handle is dropped only when the function returns, after
the removal (and no flush happens).  Concretely, at `s = 0`, `p = 1` the
run succeeds yet no `closeFile` action precedes the `removeFile` action. -/
theorem C1_counterexample :
    (securely_overwrite 0 1 false).result = true ∧
    ¬(∀ i : Fin (securely_overwrite 0 1 false).actions.length,
        (securely_overwrite 0 1 false).actions.get i = Action.removeFile →
        ∃ j : Fin (securely_overwrite 0 1 false).actions.length,
          (j : Nat) < (i : Nat) ∧
          (securely_overwrite 0 1 false).actions.get j = Action.closeFile) := by
  decide

/-- Claim C1 (amended to `s ≥ 1`): for every file size `s ≥ 1` and pass
count `p ≥ 1`, a successful erase leaves the path no longer existing, and
the directory entry is removed only after all overwrite passes and their
flushes (which all lie in the trace prefix) and after the file handle has
been closed: the action trace is exactly a prefix containing no
`removeFile` and no `closeFile`, followed by close, then remove, then the
final `Updated(100.0)` send (write-then-unlink, never unlink-then-write).
The path-no-longer-exists part holds for `s = 0` as well. -/
theorem C1_erase_removes_path_write_then_unlink (s p : Nat) (_hp : 1 ≤ p) :
    (securely_overwrite s p false).fileExists = false ∧
    (1 ≤ s →
      ∃ pre, (securely_overwrite s p false).actions =
          Action.openFile :: (pre ++ [Action.closeFile, Action.removeFile,
            Action.sendEvent (Progress.Updated 100)]) ∧
        Action.removeFile ∉ pre ∧ Action.closeFile ∉ pre) := by
  constructor
  · by_cases hs : s = 0
    · subst hs
      rfl
    · exact securely_overwrite_pos_fileExists s p hs
  · intro hs1
    have hs : ¬s = 0 := by omega
    refine ⟨(passLoop (p * s) s p 0 ⟨0, 0⟩).1,
      securely_overwrite_pos_actions s p hs,
      passLoop_no_removeFile _ _ _ _ _,
      passLoop_no_closeFile _ _ _ _ _⟩

/-- Witness for C1 at `s = 1`, `p = 1`. -/
theorem C1_witness :
    1 ≤ 1 ∧
    ((securely_overwrite 1 1 false).fileExists = false ∧
     (1 ≤ 1 →
       ∃ pre, (securely_overwrite 1 1 false).actions =
           Action.openFile :: (pre ++ [Action.closeFile, Action.removeFile,
             Action.sendEvent (Progress.Updated 100)]) ∧
         Action.removeFile ∉ pre ∧ Action.closeFile ∉ pre)) :=
  ⟨le_refl 1, C1_erase_removes_path_write_then_unlink 1 1 (le_refl 1)⟩

/-- Claim C2: for a 10 MB file (10,485,760 bytes) with `passes = 3` and
buffer size 4096, a successful run performs exactly
`ceil(10485760/4096) = 2560` buffer writes in each of the three passes and
7680 in total, sends exactly 76 intermediate `Updated` events (one per
100th write) followed by the mandatory final `Updated(100.0)`, the worker
then emits `Finished(true)` as the single last event, and the path is
removed. -/
theorem C2_ten_megabyte_scenario :
    countWritesOfPass (securely_overwrite 10485760 3 false).actions 0 = 2560 ∧
    countWritesOfPass (securely_overwrite 10485760 3 false).actions 1 = 2560 ∧
    countWritesOfPass (securely_overwrite 10485760 3 false).actions 2 = 2560 ∧
    countWrites (securely_overwrite 10485760 3 false).actions = 7680 ∧
    countUpdated (securely_overwrite 10485760 3 false).events.dropLast = 76 ∧
    (securely_overwrite 10485760 3 false).events.getLast? =
      some (Progress.Updated 100) ∧
    countUpdated (securely_overwrite 10485760 3 false).events = 77 ∧
    (workerEvents 10485760 3 false).getLast? =
      some (Progress.Finished true) ∧
    countFinished (workerEvents 10485760 3 false) = 1 ∧
    (securely_overwrite 10485760 3 false).fileExists = false := by
  have hs : ¬(10485760 : Nat) = 0 := by decide
  have hdiv : ((10485760 : Nat) + 4095) / 4096 = 2560 := by decide
  refine ⟨?_, ?_, ?_, ?_, ?_, ?_, ?_, ?_, ?_, ?_⟩
  · rw [securely_overwrite_countWritesOfPass 10485760 3 0 hs (by decide), hdiv]
  · rw [securely_overwrite_countWritesOfPass 10485760 3 1 hs (by decide), hdiv]
  · rw [securely_overwrite_countWritesOfPass 10485760 3 2 hs (by decide), hdiv]
  · rw [securely_overwrite_countWrites 10485760 3 hs, hdiv]
  · rw [securely_overwrite_pos_events 10485760 3 hs, List.dropLast_concat]
    have h := passLoop_countUpdated (3 * 10485760) 10485760 3 0 ⟨0, 0⟩
    rw [h, hdiv]
    decide
  · rw [securely_overwrite_pos_events 10485760 3 hs, List.getLast?_concat]
  · rw [securely_overwrite_countUpdated 10485760 3 hs, hdiv]
  · have h := workerEvents_getLast 10485760 3 false
    rw [h, securely_overwrite_pos 10485760 3 hs]
  · exact workerEvents_countFinished 10485760 3 false
  · exact securely_overwrite_pos_fileExists 10485760 3 hs

/-- Claim C3: for every job, exactly one `Finished(success)` event is
produced, it is the last event of the job's stream (hence, over the FIFO
channel, eventually delivered to the consumer even when the engine
fails), and `success` is false on an I/O failure of the engine (here: the
open failure of the failure model). -/
theorem C3_exactly_one_finished_always_last (s p : Nat) (b : Bool) :
    countFinished (workerEvents s p b) = 1 ∧
    (workerEvents s p b).getLast? =
      some (Progress.Finished (securely_overwrite s p b).result) ∧
    (securely_overwrite s p true).result = false :=
  ⟨workerEvents_countFinished s p b, workerEvents_getLast s p b, rfl⟩

/-- Claim C4: for an existing regular file of size 0 (any pass count), the
engine performs no overwrite write at all, deletes the file, emits exactly
one `Updated(100.0)` and returns success, so the consumer observes exactly
`Updated(100.0)` followed by `Finished(true)`. -/
theorem C4_empty_file (p : Nat) :
    securely_overwrite 0 p false =
      { actions := [Action.openFile, Action.removeFile,
          Action.sendEvent (Progress.Updated 100), Action.closeFile],
        events := [Progress.Updated 100],
        result := true, fileExists := false } ∧
    countWrites (securely_overwrite 0 p false).actions = 0 ∧
    workerEvents 0 p false = [Progress.Updated 100, Progress.Finished true] :=
  ⟨rfl, rfl, rfl⟩

/-- Claim C5: for every job (any file size, pass count, and also under the
open-failure path), the sequence of fractions carried by the `Updated`
events, in emission order, is monotonically non-decreasing. -/
theorem C5_updated_fracs_monotone (s p : Nat) (b : Bool) :
    List.Chain' (fun x y => x ≤ y) (updatedFracs (workerEvents s p b)) := by
  rw [workerEvents_def, updatedFracs_append]
  have hfin : updatedFracs
      [Progress.Finished (securely_overwrite s p b).result] = [] := by
    simp [updatedFracs]
  rw [hfin, List.append_nil]
  cases b with
  | true =>
    simp [securely_overwrite, updatedFracs]
  | false =>
    by_cases hs : s = 0
    · subst hs
      simp [securely_overwrite, updatedFracs]
    · rw [securely_overwrite_pos_events s p hs, updatedFracs_append]
      have h100 : updatedFracs [Progress.Updated (100 : ℚ)] = [100] := by
        simp [updatedFracs]
      rw [h100]
      rw [List.chain'_append]
      have hp := passLoop_fracs (p * s) s p 0 ⟨0, 0⟩
      refine ⟨hp.1, List.chain'_singleton 100, ?_⟩
      intro x hx y hy
      have hxb := (hp.2 x (mem_of_getLast? hx)).2
      have hy100 : y = 100 := by
        simp only [List.head?_cons, Option.mem_def, Option.some.injEq] at hy
        exact hy.symm
      rw [hy100]
      calc x ≤ progressFrac (0 + p * s) (p * s) := hxb
        _ ≤ 100 := progressFrac_le_100 (p * s) (by omega)

/-- Claim C6: for every file size `s > 0` (and any pass count), the final
`Updated` value of the job's stream — the last fraction before `Finished`
— is exactly `100.0`, because the engine always sends a terminal
`Updated(100.0)` even when the every-100th-write throttle skipped the
boundary. -/
theorem C6_final_updated_is_100 (s p : Nat) (hs : 0 < s) :
    (updatedFracs (workerEvents s p false)).getLast? = some 100 := by
  rw [workerEvents_def, updatedFracs_append]
  have hfin : updatedFracs
      [Progress.Finished (securely_overwrite s p false).result] = [] := by
    simp [updatedFracs]
  rw [hfin, List.append_nil]
  rw [securely_overwrite_pos_events s p (by omega), updatedFracs_append]
  have h100 : updatedFracs [Progress.Updated (100 : ℚ)] = [100] := by
    simp [updatedFracs]
  rw [h100, List.getLast?_concat]

/-- Witness for C6 at `s = 1`, `p = 1`. -/
theorem C6_witness :
    0 < 1 ∧ (updatedFracs (workerEvents 1 1 false)).getLast? = some 100 :=
  ⟨Nat.one_pos, C6_final_updated_is_100 1 1 Nat.one_pos⟩

/-- Claim C7: if opening the target file fails (e.g. permission denied),
the engine performs no action at all — no seek, write, sync or remove —
returns the error (`result = false`), the path still exists, the job sends
zero `Updated` events, and the consumer observes exactly `Finished(false)`. -/
theorem C7_open_failure (s p : Nat) :
    securely_overwrite s p true =
      { actions := [], events := [], result := false, fileExists := true } ∧
    workerEvents s p true = [Progress.Finished false] :=
  ⟨rfl, rfl⟩

/-- Claim C8: a second `EraseFile` request while a job is Running
(`erasing = true`) is a silent no-op: the handler returns the state
unchanged — receiver, erasing flag and progress untouched — and spawns no
second background unit and no new channel (`none` spawn request). -/
theorem C8_second_start_noop (a : App) (h : a.erasing = true) :
    update a Message.EraseFile = (a, none) := by
  unfold update
  rw [h]
  rfl

/-- Witness for C8 on a concrete Running state. -/
theorem C8_witness :
    (App.mk ("a.txt") 0 true (some ())).erasing = true ∧
    update (App.mk ("a.txt") 0 true (some ())) Message.EraseFile =
      (App.mk ("a.txt") 0 true (some ()), none) :=
  ⟨rfl, C8_second_start_noop (App.mk ("a.txt") 0 true (some ())) rfl⟩

/-- Claim C9: in every successful execution of the engine on a non-empty
file, the trace splits at the `sync_all` of pass `k`: every buffer write
at or before it belongs to a pass `≤ k`, and every buffer write after it
belongs to a pass `> k` — no write of pass `k+1` ever precedes the flush
of pass `k` (flush-before-next-pass invariant). -/
theorem C9_flush_before_next_pass (s p k : Nat) (hs : 0 < s) (hk : k < p) :
    ∃ l1 l2, (securely_overwrite s p false).actions =
        l1 ++ Action.syncAll k :: l2 ∧
      (∀ j sz, Action.writeChunk j sz ∈ l1 → j ≤ k) ∧
      (∀ j sz, Action.writeChunk j sz ∈ l2 → k < j) := by
  rcases passLoop_sync_split (p * s) s p 0 ⟨0, 0⟩ k (Nat.zero_le k)
    (by omega) with ⟨l1, l2, heq, hb1, hb2⟩
  refine ⟨Action.openFile :: l1,
          l2 ++ [Action.closeFile, Action.removeFile,
                 Action.sendEvent (Progress.Updated 100)], ?_, ?_, ?_⟩
  · rw [securely_overwrite_pos_actions s p (by omega), heq]
    simp [List.cons_append, List.append_assoc]
  · intro j sz hmem
    rcases List.mem_cons.mp hmem with h | h
    · simp at h
    · exact hb1 j sz h
  · intro j sz hmem
    rcases List.mem_append.mp hmem with h | h
    · exact hb2 j sz h
    · simp at h

/-- Witness for C9 at `s = 1`, `p = 2`, `k = 0`. -/
theorem C9_witness :
    0 < 1 ∧ (0 : Nat) < 2 ∧
    ∃ l1 l2, (securely_overwrite 1 2 false).actions =
        l1 ++ Action.syncAll 0 :: l2 ∧
      (∀ j sz, Action.writeChunk j sz ∈ l1 → j ≤ 0) ∧
      (∀ j sz, Action.writeChunk j sz ∈ l2 → 0 < j) :=
  ⟨Nat.one_pos, by omega,
   C9_flush_before_next_pass 1 2 0 Nat.one_pos (by omega)⟩

/-- Claim C10: on consuming `Finished(success)`, for either value of
`success`, the handler sets the displayed progress to `100.0`, clears the
`erasing` flag, discards the receiver, spawns nothing itself, and a
subsequent `EraseFile` request passes the guard again (it produces a spawn
request for the held path with 3 passes). -/
theorem C10_finished_resets_state (a : App) (success : Bool) :
    (update a (Message.ProgressMsg (Progress.Finished success))).1.progress
        = 100 ∧
    (update a (Message.ProgressMsg (Progress.Finished success))).1.erasing
        = false ∧
    (update a (Message.ProgressMsg (Progress.Finished success))).1.receiver
        = none ∧
    (update a (Message.ProgressMsg (Progress.Finished success))).2 = none ∧
    (update (update a (Message.ProgressMsg (Progress.Finished success))).1
        Message.EraseFile).2 =
      some ⟨(update a
        (Message.ProgressMsg (Progress.Finished success))).1.file, 3⟩ :=
  ⟨rfl, rfl, rfl, rfl, rfl⟩

end FileEraser
